import Mathlib

set_option maxRecDepth 40000

/-!
Verification of the smart 4-counter queue routing program
(`smart_queue.py`): sensor-row ingestion, arrival reconstruction from
cumulative sensor counts, and the multi-counter routing simulation.

Times are modelled by the rationals; Python machine integers by `Int`
and `Nat`. Fallible parsing (Python exceptions) is modelled by
`Except`.
-/

namespace SmartQueue

/-! ## Kernel-computable rational arithmetic

The program manipulates times as IEEE doubles; the embedding uses exact
rationals. The Batteries field operations on `Rat` are marked
irreducible, so the embedding uses the following `mkRat` forms, which
the kernel can evaluate; each is proved equal to the corresponding
field operation below. -/

/-- `a + b` in `mkRat` form. -/
def qadd (a b : ℚ) : ℚ := mkRat (a.num * b.den + b.num * a.den) (a.den * b.den)

/-- `a - b` in `mkRat` form. -/
def qsub (a b : ℚ) : ℚ := mkRat (a.num * b.den - b.num * a.den) (a.den * b.den)

/-- `a * b` in `mkRat` form. -/
def qmul (a b : ℚ) : ℚ := mkRat (a.num * b.num) (a.den * b.den)

/-- `max a b` (Python `max`). -/
def qmax (a b : ℚ) : ℚ := if a ≤ b then b else a

/-- `min a b` (Python `min`). -/
def qmin (a b : ℚ) : ℚ := if a ≤ b then a else b

/-! ## Ingestion: `read_sensor_live` -/

/-- Digits of a decimal numeral; models the digit runs accepted by the
Python `int` and `float` constructors on plain decimal literals. -/
def digitsVal : List Char → Option ℕ
  | [] => none
  | cs => some (cs.foldl (fun acc c => acc * 10 + (c.toNat - 48)) 0)

/-- Whether every character in the list is an ASCII digit. -/
def allDigits (cs : List Char) : Bool := cs.all (fun c => c.isDigit)

/-- Modelled from the spec and the Python builtin: `int(s)` on an
optionally signed run of decimal digits; anything else raises
`ValueError`, modelled as `none`. -/
def parseInt (s : String) : Option ℤ :=
  match s.toList with
  | '-' :: rest => if allDigits rest then (digitsVal rest).map (fun n => -(n : ℤ)) else none
  | cs => if allDigits cs then (digitsVal cs).map (fun n => (n : ℤ)) else none

/-- Split a character list at the first occurrence of the dot. -/
def splitAtDot : List Char → List Char × Option (List Char)
  | [] => ([], none)
  | c :: rest =>
    if c = '.' then ([], some rest)
    else
      let (pre, post) := splitAtDot rest
      (c :: pre, post)

/-- Value of a fractional digit run as a rational in `[0,1)`. -/
def fracVal (cs : List Char) : ℚ :=
  mkRat ((digitsVal cs).getD 0 : ℤ) (10 ^ cs.length)

/-- Modelled from the spec and the Python builtin: `float(s)` on an
optionally signed decimal literal `digits[.digits]`; anything else
raises `ValueError`, modelled as `none`. -/
def parseFloat (s : String) : Option ℚ :=
  let core : List Char → Option ℚ := fun cs =>
    match splitAtDot cs with
    | (intPart, none) =>
      if allDigits intPart then (digitsVal intPart).map (fun n => (n : ℚ)) else none
    | (intPart, some fracPart) =>
      if allDigits intPart ∧ allDigits fracPart ∧ (intPart ≠ [] ∨ fracPart ≠ []) then
        some (qadd ((digitsVal intPart).getD 0 : ℚ) (fracVal fracPart))
      else none
  match s.toList with
  | '-' :: rest => (core rest).map (fun q => -q)
  | cs => core cs

/-- One validated sensor reading: timestamp and the four cumulative
per-sensor counts, as produced by `read_sensor_live`. -/
structure SensorReading where
  ts : ℚ
  c1 : ℤ
  c2 : ℤ
  c3 : ℤ
  c4 : ℤ
deriving DecidableEq, Repr

/-- The data-row loop of `read_sensor_live`: a row with fewer than 5
fields is skipped (`continue`); otherwise the first five fields are
parsed with `float` and `int`, and a parse failure raises `ValueError`,
which is not caught (only `FileNotFoundError` is), so the whole read
aborts. -/
def read_sensor_rows : List (List String) → Except String (List SensorReading)
  | [] => Except.ok []
  | row :: rest =>
    if row.length < 5 then read_sensor_rows rest
    else
      match parseFloat (row.getD 0 ""), parseInt (row.getD 1 ""), parseInt (row.getD 2 ""),
            parseInt (row.getD 3 ""), parseInt (row.getD 4 "") with
      | some ts, some a, some b, some c, some d =>
        (read_sensor_rows rest).map (fun tl => ⟨ts, a, b, c, d⟩ :: tl)
      | _, _, _, _, _ => Except.error "ValueError"

/-- `read_sensor_live` on an already-split CSV: the first row is the
header (skipped; an empty file yields the empty list), the remaining
rows go through the data-row loop. -/
def read_sensor_live : List (List String) → Except String (List SensorReading)
  | [] => Except.ok []
  | _ :: dataRows => read_sensor_rows dataRows

/-! ## Arrival reconstruction: `create_customers_from_sensor` -/

/-- A reconstructed customer: sequential id and arrival timestamp. -/
structure Customer where
  id : ℕ
  arrival : ℚ
deriving DecidableEq, Repr

/-- Number of customers emitted for one sensor delta: the loop body
runs `increments[i]` times when `increments[i] > 0`, otherwise not at
all. -/
def emitted (delta : ℤ) : ℕ := if 0 < delta then delta.toNat else 0

/-- Emit `n` customers at timestamp `ts` with consecutive ids starting
at `idStart`. -/
def emitN : ℕ → ℚ → ℕ → List Customer
  | 0, _, _ => []
  | n + 1, ts, idStart => ⟨idStart, ts⟩ :: emitN n ts (idStart + 1)

/-- The reading loop of `create_customers_from_sensor`, carrying the
`previous` counts vector and the next customer id. Sensors are
processed in ascending index order within a reading. -/
def processReadings : List SensorReading → ℤ × ℤ × ℤ × ℤ → ℕ → List Customer
  | [], _, _ => []
  | r :: rest, (p1, p2, p3, p4), idStart =>
    let d1 := emitted (r.c1 - p1)
    let d2 := emitted (r.c2 - p2)
    let d3 := emitted (r.c3 - p3)
    let d4 := emitted (r.c4 - p4)
    emitN d1 r.ts idStart ++
    emitN d2 r.ts (idStart + d1) ++
    emitN d3 r.ts (idStart + d1 + d2) ++
    emitN d4 r.ts (idStart + d1 + d2 + d3) ++
    processReadings rest (r.c1, r.c2, r.c3, r.c4) (idStart + d1 + d2 + d3 + d4)

/-- `create_customers_from_sensor`: previous counts start at zero,
customer ids start at 1. -/
def create_customers_from_sensor (sensor_data : List SensorReading) : List Customer :=
  processReadings sensor_data (0, 0, 0, 0) 1

/-! ## Routing simulation: `simulate_multi_counter` -/

/-- Mutable per-counter simulation state. -/
structure Counter where
  free_at : ℚ
  queue : List ℕ
  service : ℚ
deriving DecidableEq, Repr

/-- One row of the simulation output. -/
structure RoutingResult where
  id : ℕ
  arrival : ℚ
  start : ℚ
  endTime : ℚ
  wait : ℚ
  counter : ℕ
  queue_after_join : ℕ
  predicted_wait : ℚ
deriving DecidableEq, Repr

instance : Inhabited RoutingResult := ⟨⟨0, 0, 0, 0, 0, 0, 0, 0⟩⟩

instance : Inhabited Customer := ⟨⟨0, 0⟩⟩

/-- Full simulator state threaded through the fold over customers. -/
structure SimState where
  counters : List Counter
  results : List RoutingResult
  suggestions : List String
  screen_messages : List String
deriving DecidableEq, Repr

def counter_count : ℕ := 4

/-- The four fixed service durations `[3.5, 5.0, 4.0, 3.0]`, written as
fractions so the kernel can compute with them. -/
def service_times : List ℚ := [mkRat 7 2, 5, 4, 3]

def max_capacity : ℕ := 5

/-- Placeholder used by total list indexing; never reached on states
with four counters. -/
def dummyCounter : Counter := ⟨0, [], 0⟩

def initState : SimState :=
  { counters := (List.range counter_count).map
      (fun i => { free_at := 0, queue := [], service := service_times.getD i 0 })
    results := []
    suggestions := []
    screen_messages := [] }

/-- Current queue length of counter `i` (`len(counters[i]["queue"])`). -/
def qlen (counters : List Counter) (i : ℕ) : ℕ :=
  (counters.getD i dummyCounter).queue.length

/-- `predicted_waits`: queue length times service duration, per counter. -/
def predictedWaits (counters : List Counter) : List ℚ :=
  counters.map (fun k => qmul (k.queue.length : ℚ) k.service)

/-- Minimum of a list of rationals (Python `min`; 0 on the empty list,
which never occurs). -/
def listMin : List ℚ → ℚ
  | [] => 0
  | [x] => x
  | x :: y :: rest => qmin x (listMin (y :: rest))

/-- Index of the first occurrence of `x` (Python `list.index`; length
of the list when absent, which never occurs here). -/
def indexOfQ (x : ℚ) : List ℚ → ℕ
  | [] => 0
  | y :: rest => if y = x then 0 else indexOfQ x rest + 1

/-- `predicted_waits.index(min(predicted_waits))`: index of the first
minimal entry. -/
def idxOfMin (l : List ℚ) : ℕ := indexOfQ (listMin l) l

/-- `[i for i in range(counter_count) if len(counters[i]["queue"]) < max_capacity]`. -/
def availableIdx (counters : List Counter) : List ℕ :=
  (List.range counter_count).filter (fun i => decide (qlen counters i < max_capacity))

/-- Python `min(available, key=...)`: first element with minimal key. -/
def minByQlen (key : ℕ → ℕ) : ℕ → List ℕ → ℕ
  | best, [] => best
  | best, x :: rest => if key x < key best then minByQlen key x rest else minByQlen key best rest

def redirectSuggestion (cid tgt : ℕ) : String :=
  "Customer " ++ toString cid ++ " redirected → Counter " ++ toString (tgt + 1)

def redirectScreen (tgt : ℕ) : String :=
  "Counter " ++ toString (tgt + 1) ++ " has space, please move."

def allFullMsg (cid : ℕ) : String :=
  "ALL counters FULL! Customer " ++ toString cid ++ " must wait."

/-- Common tail of the loop body once the final counter index and the
message streams are fixed: timing, counter mutation, result record. -/
def joinCounter (s : SimState) (c : Customer) (chosen : ℕ)
    (sugg scr : List String) : SimState :=
  let k := s.counters.getD chosen dummyCounter
  let wait := qmax 0 (qsub k.free_at c.arrival)
  let start := qadd c.arrival wait
  let endTime := qadd start k.service
  let k' : Counter := { free_at := endTime, queue := k.queue ++ [c.id], service := k.service }
  { counters := s.counters.set chosen k'
    results := s.results ++
      [{ id := c.id, arrival := c.arrival, start := start, endTime := endTime,
         wait := wait, counter := chosen + 1,
         queue_after_join := k.queue.length + 1,
         predicted_wait := (predictedWaits s.counters).getD chosen 0 }]
    suggestions := sugg
    screen_messages := scr }

/-- The result record appended by `joinCounter`. -/
def joinedResult (s : SimState) (c : Customer) (chosen : ℕ) : RoutingResult :=
  let k := s.counters.getD chosen dummyCounter
  let wait := qmax 0 (qsub k.free_at c.arrival)
  let start := qadd c.arrival wait
  { id := c.id, arrival := c.arrival, start := start, endTime := qadd start k.service,
    wait := wait, counter := chosen + 1,
    queue_after_join := k.queue.length + 1,
    predicted_wait := (predictedWaits s.counters).getD chosen 0 }

/-- One iteration of the customer loop of `simulate_multi_counter`:
`chosen_index` starts as the first index of minimal predicted wait; if
that counter is at capacity, either redirect to the least-loaded
counter with space, or, with every counter full, keep the original
choice and emit the all-full advisory pair. -/
def stepCustomer (s : SimState) (c : Customer) : SimState :=
  if max_capacity ≤ qlen s.counters (idxOfMin (predictedWaits s.counters)) then
    match availableIdx s.counters with
    | [] =>
      joinCounter s c (idxOfMin (predictedWaits s.counters))
        (s.suggestions ++ [allFullMsg c.id])
        (s.screen_messages ++ [allFullMsg c.id])
    | a :: rest =>
      joinCounter s c (minByQlen (qlen s.counters) a rest)
        (s.suggestions ++ [redirectSuggestion c.id (minByQlen (qlen s.counters) a rest)])
        (s.screen_messages ++ [redirectScreen (minByQlen (qlen s.counters) a rest)])
  else
    joinCounter s c (idxOfMin (predictedWaits s.counters)) s.suggestions s.screen_messages

/-- State after routing a whole customer list from the initial state. -/
def runSim (customers : List Customer) : SimState :=
  customers.foldl stepCustomer initState

/-- `simulate_multi_counter`: results, suggestions, screen messages. -/
def simulate_multi_counter (customers : List Customer) :
    List RoutingResult × List String × List String :=
  let s := runSim customers
  (s.results, s.suggestions, s.screen_messages)

/-- Last emitted result (the record for the customer just processed). -/
def lastResult (s : SimState) : RoutingResult := s.results.getLastD default

/-- A run of `n` customers with ids `1..n`, all arriving at time 0;
used for concrete evaluations. -/
def csN (n : ℕ) : List Customer := (List.range n).map (fun i => { id := i + 1, arrival := 0 })

/-- `free_at` of counter `j`. -/
def freeAtOf (s : SimState) (j : ℕ) : ℚ := (s.counters.getD j dummyCounter).free_at

/-- `service` of counter `j`. -/
def serviceOf (s : SimState) (j : ℕ) : ℚ := (s.counters.getD j dummyCounter).service

/-- Total number of queued customer ids across the four counters. -/
def totalQ (s : SimState) : ℕ :=
  qlen s.counters 0 + qlen s.counters 1 + qlen s.counters 2 + qlen s.counters 3

/-- Non-decreasing arrival timestamps. -/
def arrivalsMono : List Customer → Bool
  | [] => true
  | [_] => true
  | a :: b :: rest => decide (a.arrival ≤ b.arrival) && arrivalsMono (b :: rest)

/-- The per-sensor cumulative counts are non-decreasing along the
readings, starting from the previous-counts vector `p`. -/
def monotoneCounts : ℤ × ℤ × ℤ × ℤ → List SensorReading → Bool
  | _, [] => true
  | (p1, p2, p3, p4), r :: rest =>
    decide (p1 ≤ r.c1) && decide (p2 ≤ r.c2) && decide (p3 ≤ r.c3) && decide (p4 ≤ r.c4) &&
    monotoneCounts (r.c1, r.c2, r.c3, r.c4) rest

/-- Sum of the four cumulative counts of the last reading, or of the
previous-counts vector `p` when there is no reading. -/
def lastTotalsP : ℤ × ℤ × ℤ × ℤ → List SensorReading → ℤ
  | (p1, p2, p3, p4), [] => p1 + p2 + p3 + p4
  | _, r :: rest => lastTotalsP (r.c1, r.c2, r.c3, r.c4) rest

/-! ## The computable arithmetic agrees with the field operations -/

theorem qadd_eq (a b : ℚ) : qadd a b = a + b := (Rat.add_def' a b).symm

theorem qsub_eq (a b : ℚ) : qsub a b = a - b := (Rat.sub_def' a b).symm

theorem qmul_eq (a b : ℚ) : qmul a b = a * b := by
  rw [qmul, Rat.mul_def, Rat.normalize_eq_mkRat]

theorem qmax_eq (a b : ℚ) : qmax a b = max a b := (max_def a b).symm

theorem qmin_eq (a b : ℚ) : qmin a b = min a b := (min_def a b).symm

/-! ## List helper lemmas -/

theorem getD_set {α : Type _} (l : List α) (i j : ℕ) (x d : α) :
    (l.set i x).getD j d = if i = j ∧ j < l.length then x else l.getD j d := by
  induction l generalizing i j with
  | nil => simp [List.set]
  | cons y ys ih =>
    cases i with
    | zero =>
      cases j with
      | zero => simp
      | succ m => simp [List.getD_cons_succ]
    | succ n =>
      cases j with
      | zero => simp
      | succ m =>
        simp only [List.set, List.getD_cons_succ, ih n m, List.length_cons]
        congr 1
        simp only [Nat.succ_eq_add_one, eq_iff_iff]
        omega

theorem getD_mem {α : Type _} {l : List α} {j : ℕ} (h : j < l.length) (d : α) :
    l.getD j d ∈ l := by
  rw [List.getD_eq_getElem l d h]
  exact List.getElem_mem h

/-! ## `listMin`, `indexOfQ`, `idxOfMin`: Python `min` plus `list.index` -/

theorem listMin_le {l : List ℚ} {x : ℚ} (hx : x ∈ l) : listMin l ≤ x := by
  induction l with
  | nil => cases hx
  | cons y ys ih =>
    cases ys with
    | nil =>
      rcases List.mem_cons.mp hx with h | h
      · simp [listMin, h]
      · cases h
    | cons z rest =>
      rw [listMin, qmin_eq]
      rcases List.mem_cons.mp hx with h | h
      · rw [h]; exact min_le_left _ _
      · exact le_trans (min_le_right _ _) (ih h)

theorem listMin_mem {l : List ℚ} (h : l ≠ []) : listMin l ∈ l := by
  induction l with
  | nil => exact absurd rfl h
  | cons y ys ih =>
    cases ys with
    | nil => simp [listMin]
    | cons z rest =>
      rw [listMin, qmin_eq]
      rcases le_total y (listMin (z :: rest)) with hle | hle
      · rw [min_eq_left hle]; exact List.mem_cons_self _ _
      · rw [min_eq_right hle]
        exact List.mem_cons_of_mem _ (ih (by simp))

theorem indexOfQ_lt_length {x : ℚ} {l : List ℚ} (hx : x ∈ l) : indexOfQ x l < l.length := by
  induction l with
  | nil => cases hx
  | cons y ys ih =>
    rw [indexOfQ]
    by_cases h : y = x
    · simp [h]
    · rcases List.mem_cons.mp hx with h' | h'
      · exact absurd h'.symm h
      · simp only [if_neg h, List.length_cons]
        exact Nat.succ_lt_succ (ih h')

theorem getD_indexOfQ {x : ℚ} {l : List ℚ} (hx : x ∈ l) : l.getD (indexOfQ x l) 0 = x := by
  induction l with
  | nil => cases hx
  | cons y ys ih =>
    rw [indexOfQ]
    by_cases h : y = x
    · simp [h]
    · rcases List.mem_cons.mp hx with h' | h'
      · exact absurd h'.symm h
      · simp only [if_neg h, List.getD_cons_succ]
        exact ih h'

theorem getD_ne_of_lt_indexOfQ {x : ℚ} {l : List ℚ} {j : ℕ} (hj : j < indexOfQ x l) :
    l.getD j 0 ≠ x := by
  induction l generalizing j with
  | nil => simp [indexOfQ] at hj
  | cons y ys ih =>
    rw [indexOfQ] at hj
    by_cases h : y = x
    · rw [if_pos h] at hj; omega
    · rw [if_neg h] at hj
      cases j with
      | zero => simpa using h
      | succ m =>
        rw [List.getD_cons_succ]
        exact ih (by omega)

theorem idxOfMin_lt_length {l : List ℚ} (h : l ≠ []) : idxOfMin l < l.length :=
  indexOfQ_lt_length (listMin_mem h)

theorem getD_idxOfMin {l : List ℚ} (h : l ≠ []) : l.getD (idxOfMin l) 0 = listMin l :=
  getD_indexOfQ (listMin_mem h)

theorem idxOfMin_le {l : List ℚ} {j : ℕ} (h : l ≠ []) (hj : j < l.length) :
    l.getD (idxOfMin l) 0 ≤ l.getD j 0 := by
  rw [getD_idxOfMin h]
  exact listMin_le (getD_mem hj 0)

theorem idxOfMin_first {l : List ℚ} {j : ℕ} (h : l ≠ []) (hj : j < idxOfMin l) :
    l.getD (idxOfMin l) 0 < l.getD j 0 := by
  have hjl : j < l.length := lt_trans hj (idxOfMin_lt_length h)
  have hne : l.getD j 0 ≠ listMin l := getD_ne_of_lt_indexOfQ hj
  have hle : listMin l ≤ l.getD j 0 := listMin_le (getD_mem hjl 0)
  rw [getD_idxOfMin h]
  exact lt_of_le_of_ne hle (fun e => hne e.symm)

/-! ## `minByQlen`: Python `min(available, key=...)` -/

theorem minByQlen_mem (key : ℕ → ℕ) (b : ℕ) (l : List ℕ) :
    minByQlen key b l = b ∨ minByQlen key b l ∈ l := by
  induction l generalizing b with
  | nil => left; rfl
  | cons x rest ih =>
    rw [minByQlen]
    by_cases h : key x < key b
    · rw [if_pos h]
      rcases ih x with h' | h'
      · right; rw [h']; exact List.mem_cons_self _ _
      · right; exact List.mem_cons_of_mem _ h'
    · rw [if_neg h]
      rcases ih b with h' | h'
      · left; exact h'
      · right; exact List.mem_cons_of_mem _ h'

theorem minByQlen_le (key : ℕ → ℕ) (b : ℕ) (l : List ℕ) :
    key (minByQlen key b l) ≤ key b ∧ ∀ x ∈ l, key (minByQlen key b l) ≤ key x := by
  induction l generalizing b with
  | nil => exact ⟨le_refl _, fun x hx => absurd hx (List.not_mem_nil x)⟩
  | cons y rest ih =>
    rw [minByQlen]
    by_cases h : key y < key b
    · rw [if_pos h]
      refine ⟨le_trans (ih y).1 (le_of_lt h), fun x hx => ?_⟩
      rcases List.mem_cons.mp hx with h' | h'
      · rw [h']; exact (ih y).1
      · exact (ih y).2 x h'
    · rw [if_neg h]
      refine ⟨(ih b).1, fun x hx => ?_⟩
      rcases List.mem_cons.mp hx with h' | h'
      · rw [h']; exact le_trans (ih b).1 (le_of_not_lt h)
      · exact (ih b).2 x h'

/-- Python `min` keeps the earlier element on ties: on a strictly
increasing candidate list, any candidate strictly below the returned
index has a strictly larger key. -/
theorem minByQlen_first (key : ℕ → ℕ) (b : ℕ) (l : List ℕ)
    (hs : (b :: l).Pairwise (· < ·)) :
    ∀ x ∈ b :: l, x < minByQlen key b l → key (minByQlen key b l) < key x := by
  induction l generalizing b with
  | nil =>
    intro x hx hlt
    rcases List.mem_cons.mp hx with h | h
    · rw [h] at hlt; rw [minByQlen] at hlt; omega
    · cases h
  | cons y rest ih =>
    have hby : b < y := (List.pairwise_cons.mp hs).1 y (List.mem_cons_self _ _)
    have hbrest : ∀ z ∈ rest, b < z := fun z hz =>
      (List.pairwise_cons.mp hs).1 z (List.mem_cons_of_mem _ hz)
    have hyrest : (y :: rest).Pairwise (· < ·) := (List.pairwise_cons.mp hs).2
    have hbrest' : (b :: rest).Pairwise (· < ·) := by
      rw [List.pairwise_cons]
      exact ⟨hbrest, (List.pairwise_cons.mp hyrest).2⟩
    intro x hx hlt
    rw [minByQlen] at hlt ⊢
    by_cases h : key y < key b
    · rw [if_pos h] at hlt ⊢
      rcases List.mem_cons.mp hx with h' | h'
      · subst h'
        exact lt_of_le_of_lt (minByQlen_le key y rest).1 h
      · exact ih y hyrest x h' hlt
    · rw [if_neg h] at hlt ⊢
      rcases List.mem_cons.mp hx with h' | h'
      · exact ih b hbrest' x (h' ▸ List.mem_cons_self _ _) hlt
      · rcases List.mem_cons.mp h' with h'' | h''
        · subst h''
          have hbr : b < minByQlen key b rest := by
            rcases minByQlen_mem key b rest with e | e
            · rw [e] at hlt; exact absurd hlt (lt_asymm hby)
            · exact hbrest _ e
          have := ih b hbrest' b (List.mem_cons_self _ _) hbr
          exact lt_of_lt_of_le this (le_of_not_lt h)
        · exact ih b hbrest' x (List.mem_cons_of_mem _ h'') hlt

/-! ## `availableIdx` -/

theorem mem_availableIdx {counters : List Counter} {i : ℕ} :
    i ∈ availableIdx counters ↔ i < 4 ∧ qlen counters i < 5 := by
  simp [availableIdx, List.mem_filter, List.mem_range, counter_count, max_capacity]

theorem availableIdx_pairwise (counters : List Counter) :
    (availableIdx counters).Pairwise (· < ·) :=
  List.Pairwise.filter _ (List.pairwise_lt_range counter_count)

theorem availableIdx_eq_nil {counters : List Counter}
    (h : ∀ j, j < 4 → 5 ≤ qlen counters j) : availableIdx counters = [] := by
  rw [availableIdx, List.filter_eq_nil_iff]
  intro a ha
  have : a < 4 := by simpa [counter_count] using List.mem_range.mp ha
  simp only [max_capacity, decide_eq_true_eq, not_lt]
  exact h a this

/-! ## `joinCounter` and `stepCustomer` structure lemmas -/

theorem joinCounter_results (s : SimState) (c : Customer) (ch : ℕ) (sg sc : List String) :
    (joinCounter s c ch sg sc).results = s.results ++ [joinedResult s c ch] := rfl

theorem joinCounter_suggestions (s : SimState) (c : Customer) (ch : ℕ) (sg sc : List String) :
    (joinCounter s c ch sg sc).suggestions = sg := rfl

theorem joinCounter_screen (s : SimState) (c : Customer) (ch : ℕ) (sg sc : List String) :
    (joinCounter s c ch sg sc).screen_messages = sc := rfl

theorem joinCounter_counters (s : SimState) (c : Customer) (ch : ℕ) (sg sc : List String) :
    (joinCounter s c ch sg sc).counters =
      s.counters.set ch
        { free_at := (joinedResult s c ch).endTime,
          queue := (s.counters.getD ch dummyCounter).queue ++ [c.id],
          service := (s.counters.getD ch dummyCounter).service } := rfl

theorem lastResult_joinCounter (s : SimState) (c : Customer) (ch : ℕ) (sg sc : List String) :
    lastResult (joinCounter s c ch sg sc) = joinedResult s c ch := by
  rw [lastResult, joinCounter_results, List.getLastD_concat]

theorem joinedResult_counter (s : SimState) (c : Customer) (ch : ℕ) :
    (joinedResult s c ch).counter = ch + 1 := rfl

theorem joinedResult_id (s : SimState) (c : Customer) (ch : ℕ) :
    (joinedResult s c ch).id = c.id := rfl

theorem joinedResult_arrival (s : SimState) (c : Customer) (ch : ℕ) :
    (joinedResult s c ch).arrival = c.arrival := rfl

theorem joinedResult_qaj (s : SimState) (c : Customer) (ch : ℕ) :
    (joinedResult s c ch).queue_after_join = qlen s.counters ch + 1 := rfl

theorem joinedResult_pw (s : SimState) (c : Customer) (ch : ℕ) :
    (joinedResult s c ch).predicted_wait = (predictedWaits s.counters).getD ch 0 := rfl

theorem joinedResult_wait (s : SimState) (c : Customer) (ch : ℕ) :
    (joinedResult s c ch).wait = max 0 (freeAtOf s ch - c.arrival) := by
  show qmax 0 (qsub (s.counters.getD ch dummyCounter).free_at c.arrival) = _
  rw [qmax_eq, qsub_eq, freeAtOf]

theorem joinedResult_start (s : SimState) (c : Customer) (ch : ℕ) :
    (joinedResult s c ch).start = c.arrival + (joinedResult s c ch).wait := by
  show qadd c.arrival _ = _
  rw [qadd_eq]
  rfl

theorem joinedResult_endTime (s : SimState) (c : Customer) (ch : ℕ) :
    (joinedResult s c ch).endTime = (joinedResult s c ch).start + serviceOf s ch := by
  show qadd _ _ = _
  rw [qadd_eq, serviceOf]
  rfl

theorem qlen_joinCounter (s : SimState) (c : Customer) (ch : ℕ) (sg sc : List String) (j : ℕ) :
    qlen (joinCounter s c ch sg sc).counters j =
      if ch = j ∧ j < s.counters.length then qlen s.counters j + 1 else qlen s.counters j := by
  rw [qlen, joinCounter_counters, getD_set]
  by_cases h : ch = j ∧ j < s.counters.length
  · rw [if_pos h, if_pos h]
    obtain ⟨rfl, _⟩ := h
    simp [qlen]
  · rw [if_neg h, if_neg h, qlen]

theorem queue_joinCounter (s : SimState) (c : Customer) (ch : ℕ) (sg sc : List String) (j : ℕ) :
    ((joinCounter s c ch sg sc).counters.getD j dummyCounter).queue =
      if ch = j ∧ j < s.counters.length then
        (s.counters.getD j dummyCounter).queue ++ [c.id]
      else (s.counters.getD j dummyCounter).queue := by
  rw [joinCounter_counters, getD_set]
  by_cases h : ch = j ∧ j < s.counters.length
  · rw [if_pos h, if_pos h]
    obtain ⟨rfl, _⟩ := h
    rfl
  · rw [if_neg h, if_neg h]

theorem freeAt_joinCounter (s : SimState) (c : Customer) (ch : ℕ) (sg sc : List String) (j : ℕ) :
    freeAtOf (joinCounter s c ch sg sc) j =
      if ch = j ∧ j < s.counters.length then (joinedResult s c ch).endTime
      else freeAtOf s j := by
  rw [freeAtOf, joinCounter_counters, getD_set]
  by_cases h : ch = j ∧ j < s.counters.length
  · rw [if_pos h, if_pos h]
  · rw [if_neg h, if_neg h, freeAtOf]

theorem service_joinCounter (s : SimState) (c : Customer) (ch : ℕ) (sg sc : List String) (j : ℕ) :
    serviceOf (joinCounter s c ch sg sc) j = serviceOf s j := by
  rw [serviceOf, joinCounter_counters, getD_set]
  by_cases h : ch = j ∧ j < s.counters.length
  · rw [if_pos h]
    obtain ⟨rfl, _⟩ := h
    rfl
  · rw [if_neg h, serviceOf]

theorem joinCounter_counters_length (s : SimState) (c : Customer) (ch : ℕ) (sg sc : List String) :
    (joinCounter s c ch sg sc).counters.length = s.counters.length := by
  rw [joinCounter_counters, List.length_set]

theorem predictedWaits_length (counters : List Counter) :
    (predictedWaits counters).length = counters.length := List.length_map _ _

theorem idxOfMin_pw_lt (counters : List Counter) (h4 : counters.length = 4) :
    idxOfMin (predictedWaits counters) < 4 := by
  have hne : predictedWaits counters ≠ [] := by
    intro h
    rw [← List.length_eq_zero, predictedWaits_length, h4] at h
    omega
  have := idxOfMin_lt_length hne
  rwa [predictedWaits_length, h4] at this

theorem stepCustomer_of_lt (s : SimState) (c : Customer)
    (h : qlen s.counters (idxOfMin (predictedWaits s.counters)) < max_capacity) :
    stepCustomer s c =
      joinCounter s c (idxOfMin (predictedWaits s.counters)) s.suggestions s.screen_messages := by
  rw [stepCustomer, if_neg (not_le.mpr h)]

theorem stepCustomer_of_full_nil (s : SimState) (c : Customer)
    (h : max_capacity ≤ qlen s.counters (idxOfMin (predictedWaits s.counters)))
    (hA : availableIdx s.counters = []) :
    stepCustomer s c =
      joinCounter s c (idxOfMin (predictedWaits s.counters))
        (s.suggestions ++ [allFullMsg c.id])
        (s.screen_messages ++ [allFullMsg c.id]) := by
  rw [stepCustomer, if_pos h, hA]

theorem stepCustomer_of_full_cons (s : SimState) (c : Customer) {a : ℕ} {rest : List ℕ}
    (h : max_capacity ≤ qlen s.counters (idxOfMin (predictedWaits s.counters)))
    (hA : availableIdx s.counters = a :: rest) :
    stepCustomer s c =
      joinCounter s c (minByQlen (qlen s.counters) a rest)
        (s.suggestions ++ [redirectSuggestion c.id (minByQlen (qlen s.counters) a rest)])
        (s.screen_messages ++ [redirectScreen (minByQlen (qlen s.counters) a rest)]) := by
  rw [stepCustomer, if_pos h, hA]

/-- Every step is a `joinCounter` at an index that is below 4 whenever
the state has four counters. -/
theorem stepCustomer_join (s : SimState) (c : Customer) :
    ∃ ch sg sc, stepCustomer s c = joinCounter s c ch sg sc ∧
      (s.counters.length = 4 → ch < 4) := by
  by_cases h : max_capacity ≤ qlen s.counters (idxOfMin (predictedWaits s.counters))
  · rcases hA : availableIdx s.counters with _ | ⟨a, rest⟩
    · exact ⟨_, _, _, stepCustomer_of_full_nil s c h hA,
        fun h4 => idxOfMin_pw_lt s.counters h4⟩
    · refine ⟨_, _, _, stepCustomer_of_full_cons s c h hA, fun _ => ?_⟩
      have hmem : minByQlen (qlen s.counters) a rest ∈ availableIdx s.counters := by
        rw [hA]
        rcases minByQlen_mem (qlen s.counters) a rest with e | e
        · rw [e]; exact List.mem_cons_self _ _
        · exact List.mem_cons_of_mem _ e
      exact (mem_availableIdx.mp hmem).1
  · exact ⟨_, _, _, stepCustomer_of_lt s c (not_le.mp h),
      fun h4 => idxOfMin_pw_lt s.counters h4⟩

theorem stepCustomer_counters_length (s : SimState) (c : Customer) :
    (stepCustomer s c).counters.length = s.counters.length := by
  obtain ⟨ch, sg, sc, heq, -⟩ := stepCustomer_join s c
  rw [heq, joinCounter_counters_length]

theorem foldl_counters_length (cs : List Customer) (s : SimState) :
    (List.foldl stepCustomer s cs).counters.length = s.counters.length := by
  induction cs generalizing s with
  | nil => rfl
  | cons c rest ih => rw [List.foldl_cons, ih, stepCustomer_counters_length]

theorem initState_counters_length : initState.counters.length = 4 := rfl

theorem runSim_counters_length (cs : List Customer) : (runSim cs).counters.length = 4 := by
  rw [runSim, foldl_counters_length, initState_counters_length]

theorem runSim_append_one (cs : List Customer) (c : Customer) :
    runSim (cs ++ [c]) = stepCustomer (runSim cs) c := by
  rw [runSim, runSim, List.foldl_append, List.foldl_cons, List.foldl_nil]

/-! ## Service durations are invariant and positive -/

theorem serviceOf_stepCustomer (s : SimState) (c : Customer) (j : ℕ) :
    serviceOf (stepCustomer s c) j = serviceOf s j := by
  obtain ⟨ch, sg, sc, heq, -⟩ := stepCustomer_join s c
  rw [heq, service_joinCounter]

theorem serviceOf_foldl (cs : List Customer) (s : SimState) (j : ℕ) :
    serviceOf (List.foldl stepCustomer s cs) j = serviceOf s j := by
  induction cs generalizing s with
  | nil => rfl
  | cons c rest ih => rw [List.foldl_cons, ih, serviceOf_stepCustomer]

theorem serviceOf_runSim (cs : List Customer) (j : ℕ) (hj : j < 4) :
    serviceOf (runSim cs) j = service_times.getD j 0 := by
  rw [runSim, serviceOf_foldl]
  interval_cases j <;> rfl

theorem service_times_pos (j : ℕ) (hj : j < 4) : 0 < service_times.getD j 0 := by
  interval_cases j <;> decide

theorem serviceOf_runSim_pos (cs : List Customer) (j : ℕ) (hj : j < 4) :
    0 < serviceOf (runSim cs) j := by
  rw [serviceOf_runSim cs j hj]
  exact service_times_pos j hj

/-! ## `free_at` only moves forward -/

theorem add_max_zero_sub (a f : ℚ) : a + max 0 (f - a) = max a f := by
  rcases le_total f a with h | h
  · rw [max_eq_left (sub_nonpos.mpr h), max_eq_left h, add_zero]
  · rw [max_eq_right (sub_nonneg.mpr h), max_eq_right h]; ring

theorem joinedResult_endTime_eq (s : SimState) (c : Customer) (ch : ℕ) :
    (joinedResult s c ch).endTime = max c.arrival (freeAtOf s ch) + serviceOf s ch := by
  rw [joinedResult_endTime, joinedResult_start, joinedResult_wait, add_max_zero_sub]

theorem freeAt_stepCustomer_ge (s : SimState) (c : Customer) (j : ℕ)
    (hsv : 0 ≤ serviceOf s j) : freeAtOf s j ≤ freeAtOf (stepCustomer s c) j := by
  obtain ⟨ch, sg, sc, heq, -⟩ := stepCustomer_join s c
  rw [heq, freeAt_joinCounter]
  by_cases h : ch = j ∧ j < s.counters.length
  · rw [if_pos h]
    obtain ⟨rfl, -⟩ := h
    rw [joinedResult_endTime_eq]
    have h1 : freeAtOf s ch ≤ max c.arrival (freeAtOf s ch) := le_max_right _ _
    linarith
  · rw [if_neg h]

/-! ## Results grow by exactly one record per customer -/

theorem stepCustomer_results (s : SimState) (c : Customer) :
    ∃ ch, (stepCustomer s c).results = s.results ++ [joinedResult s c ch] ∧
      (s.counters.length = 4 → ch < 4) := by
  obtain ⟨ch, sg, sc, heq, hch⟩ := stepCustomer_join s c
  exact ⟨ch, by rw [heq, joinCounter_results], hch⟩

theorem stepCustomer_results_length (s : SimState) (c : Customer) :
    (stepCustomer s c).results.length = s.results.length + 1 := by
  obtain ⟨ch, heq, -⟩ := stepCustomer_results s c
  rw [heq, List.length_append, List.length_cons, List.length_nil]

theorem foldl_results_length (cs : List Customer) (s : SimState) :
    (List.foldl stepCustomer s cs).results.length = s.results.length + cs.length := by
  induction cs generalizing s with
  | nil => rfl
  | cons c rest ih =>
    rw [List.foldl_cons, ih, stepCustomer_results_length, List.length_cons]
    omega

theorem runSim_results_length (cs : List Customer) :
    (runSim cs).results.length = cs.length := by
  rw [runSim, foldl_results_length]
  simp [initState]

theorem foldl_results_append (cs : List Customer) (s : SimState) :
    ∃ t, (List.foldl stepCustomer s cs).results = s.results ++ t := by
  induction cs generalizing s with
  | nil => exact ⟨[], by rw [List.foldl_nil, List.append_nil]⟩
  | cons c rest ih =>
    rw [List.foldl_cons]
    obtain ⟨t, ht⟩ := ih (stepCustomer s c)
    obtain ⟨ch, hch, -⟩ := stepCustomer_results s c
    exact ⟨[joinedResult s c ch] ++ t, by rw [ht, hch, List.append_assoc]⟩

/-- Running a prefix of the customer list produces the corresponding
prefix of the results. -/
theorem runSim_take (cs : List Customer) (k : ℕ) :
    (runSim (cs.take k)).results = (runSim cs).results.take k := by
  rcases le_or_lt k cs.length with hk | hk
  · have h1 : runSim cs = List.foldl stepCustomer (runSim (cs.take k)) (cs.drop k) := by
      rw [runSim, runSim, ← List.foldl_append, List.take_append_drop]
    obtain ⟨t, ht⟩ := foldl_results_append (cs.drop k) (runSim (cs.take k))
    rw [h1, ht]
    have hlen : (runSim (cs.take k)).results.length = k := by
      rw [runSim_results_length, List.length_take]
      omega
    rw [List.take_left' hlen]
  · have h1 : cs.take k = cs := List.take_of_length_le (le_of_lt hk)
    have h2 : (runSim cs).results.length ≤ k := by
      rw [runSim_results_length]; omega
    rw [h1, List.take_of_length_le h2]

/-! ## Message streams grow in lock step -/

theorem stepCustomer_msgs (s : SimState) (c : Customer) :
    ((stepCustomer s c).suggestions = s.suggestions ∧
      (stepCustomer s c).screen_messages = s.screen_messages) ∨
    (∃ m1 m2, (stepCustomer s c).suggestions = s.suggestions ++ [m1] ∧
      (stepCustomer s c).screen_messages = s.screen_messages ++ [m2]) := by
  by_cases h : max_capacity ≤ qlen s.counters (idxOfMin (predictedWaits s.counters))
  · rcases hA : availableIdx s.counters with _ | ⟨a, rest⟩
    · right
      rw [stepCustomer_of_full_nil s c h hA, joinCounter_suggestions, joinCounter_screen]
      exact ⟨_, _, rfl, rfl⟩
    · right
      rw [stepCustomer_of_full_cons s c h hA, joinCounter_suggestions, joinCounter_screen]
      exact ⟨_, _, rfl, rfl⟩
  · left
    rw [stepCustomer_of_lt s c (not_le.mp h), joinCounter_suggestions, joinCounter_screen]
    exact ⟨rfl, rfl⟩

theorem foldl_msgs_length (cs : List Customer) (s : SimState)
    (h : s.suggestions.length = s.screen_messages.length) :
    (List.foldl stepCustomer s cs).suggestions.length =
      (List.foldl stepCustomer s cs).screen_messages.length := by
  induction cs generalizing s with
  | nil => exact h
  | cons c rest ih =>
    rw [List.foldl_cons]
    refine ih (stepCustomer s c) ?_
    rcases stepCustomer_msgs s c with ⟨h1, h2⟩ | ⟨m1, m2, h1, h2⟩
    · rw [h1, h2]; exact h
    · rw [h1, h2, List.length_append, List.length_append, h]
      simp

/-! ## Queue lengths versus emitted results -/

theorem of_availableIdx_eq_nil {counters : List Counter} (h : availableIdx counters = []) :
    ∀ j, j < 4 → 5 ≤ qlen counters j := by
  intro j hj
  have := List.filter_eq_nil_iff.mp (by rwa [availableIdx] at h) j
    (List.mem_range.mpr (by simpa [counter_count] using hj))
  simpa [max_capacity, not_lt] using this

theorem inv2_step (s : SimState) (c : Customer) (h4 : s.counters.length = 4)
    (hInv : ∀ j, j < 4 →
      qlen s.counters j = s.results.countP (fun r => decide (r.counter = j + 1))) :
    ∀ j, j < 4 → qlen (stepCustomer s c).counters j =
      (stepCustomer s c).results.countP (fun r => decide (r.counter = j + 1)) := by
  obtain ⟨ch, sg, sc, heq, hch⟩ := stepCustomer_join s c
  have hch4 := hch h4
  intro j hj
  rw [heq, joinCounter_results, qlen_joinCounter, List.countP_append]
  by_cases hcj : ch = j
  · subst hcj
    rw [if_pos ⟨rfl, by omega⟩, hInv ch hch4]
    simp [List.countP_cons, joinedResult_counter]
  · rw [if_neg (fun hc => hcj hc.1), hInv j hj]
    have : ¬(ch + 1 = j + 1) := by omega
    simp [List.countP_cons, joinedResult_counter, this]

theorem inv2_foldl (cs : List Customer) (s : SimState) (h4 : s.counters.length = 4)
    (hInv : ∀ j, j < 4 →
      qlen s.counters j = s.results.countP (fun r => decide (r.counter = j + 1))) :
    ∀ j, j < 4 → qlen (List.foldl stepCustomer s cs).counters j =
      (List.foldl stepCustomer s cs).results.countP (fun r => decide (r.counter = j + 1)) := by
  induction cs generalizing s with
  | nil => exact hInv
  | cons c rest ih =>
    rw [List.foldl_cons]
    exact ih (stepCustomer s c)
      (by rw [stepCustomer_counters_length]; exact h4)
      (inv2_step s c h4 hInv)

theorem inv2_runSim (cs : List Customer) :
    ∀ j, j < 4 → qlen (runSim cs).counters j =
      (runSim cs).results.countP (fun r => decide (r.counter = j + 1)) := by
  rw [runSim]
  refine inv2_foldl cs initState initState_counters_length ?_
  intro j hj
  interval_cases j <;> rfl

theorem totalQ_step (s : SimState) (c : Customer) (h4 : s.counters.length = 4) :
    totalQ (stepCustomer s c) = totalQ s + 1 := by
  obtain ⟨ch, sg, sc, heq, hch⟩ := stepCustomer_join s c
  have hch4 := hch h4
  rw [totalQ, totalQ, heq, qlen_joinCounter, qlen_joinCounter, qlen_joinCounter,
    qlen_joinCounter, h4]
  interval_cases ch <;> simp <;> omega

theorem totalQ_runSim (cs : List Customer) : totalQ (runSim cs) = cs.length := by
  suffices h : ∀ (l : List Customer) (s : SimState), s.counters.length = 4 →
      totalQ (List.foldl stepCustomer s l) = totalQ s + l.length by
    have := h cs initState initState_counters_length
    rw [runSim, this]
    have h0 : totalQ initState = 0 := rfl
    omega
  intro l
  induction l with
  | nil => intro s _; rw [List.foldl_nil, List.length_nil, Nat.add_zero]
  | cons c rest ih =>
    intro s h4
    rw [List.foldl_cons, ih (stepCustomer s c) (by rw [stepCustomer_counters_length]; exact h4),
      totalQ_step s c h4, List.length_cons]
    omega

theorem cap_step (s : SimState) (c : Customer) (h4 : s.counters.length = 4)
    (h : (∀ j, j < 4 → qlen s.counters j ≤ 5) ∨ (∀ j, j < 4 → 5 ≤ qlen s.counters j)) :
    (∀ j, j < 4 → qlen (stepCustomer s c).counters j ≤ 5) ∨
      (∀ j, j < 4 → 5 ≤ qlen (stepCustomer s c).counters j) := by
  by_cases hfull : max_capacity ≤ qlen s.counters (idxOfMin (predictedWaits s.counters))
  · rcases hA : availableIdx s.counters with _ | ⟨a, rest⟩
    · right
      intro j hj
      rw [stepCustomer_of_full_nil s c hfull hA, qlen_joinCounter]
      have h5 := of_availableIdx_eq_nil hA j hj
      split <;> omega
    · left
      have hmem : minByQlen (qlen s.counters) a rest ∈ availableIdx s.counters := by
        rw [hA]
        rcases minByQlen_mem (qlen s.counters) a rest with e | e
        · rw [e]; exact List.mem_cons_self _ _
        · exact List.mem_cons_of_mem _ e
      obtain ⟨htgt4, htgt5⟩ := mem_availableIdx.mp hmem
      have hle : ∀ j, j < 4 → qlen s.counters j ≤ 5 := by
        rcases h with h | h
        · exact h
        · exact absurd (h _ htgt4) (by omega)
      intro j hj
      rw [stepCustomer_of_full_cons s c hfull hA, qlen_joinCounter]
      by_cases hcj : minByQlen (qlen s.counters) a rest = j
      · rw [if_pos ⟨hcj, by omega⟩]
        rw [hcj] at htgt5
        omega
      · rw [if_neg (fun hc => hcj hc.1)]
        exact hle j hj
  · left
    have hch4 := idxOfMin_pw_lt s.counters h4
    have hlt : qlen s.counters (idxOfMin (predictedWaits s.counters)) < max_capacity :=
      not_le.mp hfull
    have hle : ∀ j, j < 4 → qlen s.counters j ≤ 5 := by
      rcases h with h | h
      · exact h
      · exact absurd (h _ hch4) (by rw [max_capacity] at hlt; omega)
    intro j hj
    rw [stepCustomer_of_lt s c hlt, qlen_joinCounter]
    by_cases hcj : idxOfMin (predictedWaits s.counters) = j
    · rw [if_pos ⟨hcj, by omega⟩]
      rw [hcj] at hlt
      rw [max_capacity] at hlt
      omega
    · rw [if_neg (fun hc => hcj hc.1)]
      exact hle j hj

theorem cap_runSim (cs : List Customer) :
    (∀ j, j < 4 → qlen (runSim cs).counters j ≤ 5) ∨
      (∀ j, j < 4 → 5 ≤ qlen (runSim cs).counters j) := by
  suffices h : ∀ (l : List Customer) (s : SimState), s.counters.length = 4 →
      ((∀ j, j < 4 → qlen s.counters j ≤ 5) ∨ (∀ j, j < 4 → 5 ≤ qlen s.counters j)) →
      ((∀ j, j < 4 → qlen (List.foldl stepCustomer s l).counters j ≤ 5) ∨
        (∀ j, j < 4 → 5 ≤ qlen (List.foldl stepCustomer s l).counters j)) by
    refine h cs initState initState_counters_length (Or.inl ?_)
    intro j hj
    interval_cases j <;> decide
  intro l
  induction l with
  | nil => intro s _ hs; exact hs
  | cons c rest ih =>
    intro s h4 hs
    rw [List.foldl_cons]
    exact ih (stepCustomer s c) (by rw [stepCustomer_counters_length]; exact h4)
      (cap_step s c h4 hs)

/-- After 20 customers, every counter holds at least 5 queued ids. -/
theorem full_after_20 (cs : List Customer) (h : 20 ≤ cs.length) :
    ∀ j, j < 4 → 5 ≤ qlen (runSim cs).counters j := by
  rcases cap_runSim cs with hcap | hcap
  · have e := totalQ_runSim cs
    rw [totalQ] at e
    have h0 := hcap 0 (by omega)
    have h1 := hcap 1 (by omega)
    have h2 := hcap 2 (by omega)
    have h3 := hcap 3 (by omega)
    intro j hj
    interval_cases j <;> omega
  · exact hcap

/-! ## Every emitted wait is the `max` with zero, hence non-negative -/

theorem results_wait_nonneg (cs : List Customer) :
    ∀ r ∈ (runSim cs).results, 0 ≤ r.wait := by
  suffices h : ∀ (l : List Customer) (s : SimState), (∀ r ∈ s.results, 0 ≤ r.wait) →
      ∀ r ∈ (List.foldl stepCustomer s l).results, 0 ≤ r.wait by
    refine h cs initState ?_
    intro r hr
    cases hr
  intro l
  induction l with
  | nil => intro s hs; exact hs
  | cons c rest ih =>
    intro s hs
    rw [List.foldl_cons]
    refine ih (stepCustomer s c) ?_
    obtain ⟨ch, heq, -⟩ := stepCustomer_results s c
    rw [heq]
    intro r hr
    rcases List.mem_append.mp hr with h' | h'
    · exact hs r h'
    · rcases List.mem_singleton.mp h' with rfl
      rw [joinedResult_wait]
      exact le_max_left _ _

/-! ## Arrival reconstruction: counting and ids -/

theorem emitN_length (n : ℕ) (ts : ℚ) (i : ℕ) : (emitN n ts i).length = n := by
  induction n generalizing i with
  | zero => rfl
  | succ m ih => rw [emitN, List.length_cons, ih]

theorem emitted_cast {d : ℤ} (h : 0 ≤ d) : (emitted d : ℤ) = d := by
  rw [emitted]
  split
  · exact Int.toNat_of_nonneg h
  · next hd => simp; omega

theorem processReadings_length (rs : List SensorReading) :
    ∀ (p1 p2 p3 p4 : ℤ) (i : ℕ), monotoneCounts (p1, p2, p3, p4) rs = true →
      ((processReadings rs (p1, p2, p3, p4) i).length : ℤ) =
        lastTotalsP (p1, p2, p3, p4) rs - (p1 + p2 + p3 + p4) := by
  induction rs with
  | nil =>
    intro p1 p2 p3 p4 i _
    rw [processReadings, lastTotalsP]
    simp
  | cons r rest ih =>
    intro p1 p2 p3 p4 i hmono
    rw [monotoneCounts] at hmono
    simp only [Bool.and_eq_true, decide_eq_true_eq] at hmono
    obtain ⟨⟨⟨⟨h1, h2⟩, h3⟩, h4⟩, hrest⟩ := hmono
    have e1 := emitted_cast (sub_nonneg.mpr h1)
    have e2 := emitted_cast (sub_nonneg.mpr h2)
    have e3 := emitted_cast (sub_nonneg.mpr h3)
    have e4 := emitted_cast (sub_nonneg.mpr h4)
    have ihh := ih r.c1 r.c2 r.c3 r.c4
      (i + emitted (r.c1 - p1) + emitted (r.c2 - p2) + emitted (r.c3 - p3) +
        emitted (r.c4 - p4)) hrest
    simp only [processReadings, List.length_append, emitN_length]
    rw [show lastTotalsP (p1, p2, p3, p4) (r :: rest) =
      lastTotalsP (r.c1, r.c2, r.c3, r.c4) rest from rfl]
    push_cast
    omega

theorem emitN_ids (n : ℕ) (ts : ℚ) (i : ℕ) :
    (emitN n ts i).map (fun c => c.id) = List.range' i n := by
  induction n generalizing i with
  | zero => rfl
  | succ m ih => rw [emitN, List.map_cons, ih, List.range'_succ]

theorem ids_append (A B : List Customer) (i j : ℕ)
    (hA : A.map (fun c => c.id) = List.range' i A.length)
    (hB : B.map (fun c => c.id) = List.range' j B.length)
    (hj : j = i + A.length) :
    (A ++ B).map (fun c => c.id) = List.range' i (A ++ B).length := by
  subst hj
  rw [List.map_append, hA, hB, List.length_append, List.range'_append_1, Nat.add_comm]

theorem processReadings_ids (rs : List SensorReading) :
    ∀ (p1 p2 p3 p4 : ℤ) (i : ℕ),
      (processReadings rs (p1, p2, p3, p4) i).map (fun c => c.id) =
        List.range' i (processReadings rs (p1, p2, p3, p4) i).length := by
  induction rs with
  | nil => intro p1 p2 p3 p4 i; rfl
  | cons r rest ih =>
    intro p1 p2 p3 p4 i
    simp only [processReadings]
    have h1 : (emitN (emitted (r.c1 - p1)) r.ts i).map (fun c => c.id) =
        List.range' i (emitN (emitted (r.c1 - p1)) r.ts i).length := by
      rw [emitN_ids, emitN_length]
    have h2 : (emitN (emitted (r.c2 - p2)) r.ts (i + emitted (r.c1 - p1))).map
          (fun c => c.id) =
        List.range' (i + emitted (r.c1 - p1))
          (emitN (emitted (r.c2 - p2)) r.ts (i + emitted (r.c1 - p1))).length := by
      rw [emitN_ids, emitN_length]
    have h12 := ids_append _ _ _ _ h1 h2 (by rw [emitN_length])
    have h3 : (emitN (emitted (r.c3 - p3)) r.ts
          (i + emitted (r.c1 - p1) + emitted (r.c2 - p2))).map (fun c => c.id) =
        List.range' (i + emitted (r.c1 - p1) + emitted (r.c2 - p2))
          (emitN (emitted (r.c3 - p3)) r.ts
            (i + emitted (r.c1 - p1) + emitted (r.c2 - p2))).length := by
      rw [emitN_ids, emitN_length]
    have h123 := ids_append _ _ _ _ h12 h3
      (by rw [List.length_append, emitN_length, emitN_length]; omega)
    have h4 : (emitN (emitted (r.c4 - p4)) r.ts
          (i + emitted (r.c1 - p1) + emitted (r.c2 - p2) + emitted (r.c3 - p3))).map
          (fun c => c.id) =
        List.range' (i + emitted (r.c1 - p1) + emitted (r.c2 - p2) + emitted (r.c3 - p3))
          (emitN (emitted (r.c4 - p4)) r.ts
            (i + emitted (r.c1 - p1) + emitted (r.c2 - p2) + emitted (r.c3 - p3))).length := by
      rw [emitN_ids, emitN_length]
    have h1234 := ids_append _ _ _ _ h123 h4
      (by rw [List.length_append, List.length_append, emitN_length, emitN_length,
          emitN_length]; omega)
    have hrest := ih r.c1 r.c2 r.c3 r.c4
      (i + emitted (r.c1 - p1) + emitted (r.c2 - p2) + emitted (r.c3 - p3) +
        emitted (r.c4 - p4))
    exact ids_append _ _ _ _ h1234 hrest
      (by rw [List.length_append, List.length_append, List.length_append, emitN_length,
          emitN_length, emitN_length, emitN_length]; omega)

/-! ## The `queue_after_join` field counts same-counter results -/

theorem getD_append_singleton {α : Type _} (A : List α) (x d : α) :
    (A ++ [x]).getD A.length d = x := by
  induction A with
  | nil => rfl
  | cons a as ih => exact ih

theorem take_succ_getElem {α : Type _} [Inhabited α] (l : List α) (i : ℕ) (h : i < l.length) :
    l.take (i + 1) = l.take i ++ [l.getD i default] := by
  rw [List.take_succ, List.getElem?_eq_getElem h, List.getD_eq_getElem _ _ h]
  rfl

theorem getD_take_succ {α : Type _} (l : List α) (i : ℕ) (h : i < l.length) (d : α) :
    (l.take (i + 1)).getD i d = l.getD i d := by
  have h1 : i < (l.take (i + 1)).length := by
    rw [List.length_take]
    omega
  rw [List.getD_eq_getElem _ _ h1, List.getD_eq_getElem _ _ h, List.getElem_take]

theorem qaj_counts (cs : List Customer) (i : ℕ) (hi : i < cs.length) :
    ((runSim cs).results.getD i default).queue_after_join =
      ((runSim cs).results.take (i + 1)).countP
        (fun r => decide (r.counter = ((runSim cs).results.getD i default).counter)) := by
  have hlen : (runSim cs).results.length = cs.length := runSim_results_length cs
  have hstep : cs.take (i + 1) = cs.take i ++ [cs.getD i default] :=
    take_succ_getElem cs i hi
  have h4 : (runSim (cs.take i)).counters.length = 4 := runSim_counters_length _
  obtain ⟨ch, sg, sc, heq, hch⟩ :=
    stepCustomer_join (runSim (cs.take i)) (cs.getD i default)
  have hch4 := hch h4
  have hrun : runSim (cs.take (i + 1)) =
      joinCounter (runSim (cs.take i)) (cs.getD i default) ch sg sc := by
    rw [hstep, runSim_append_one, heq]
  have hAlen : (runSim (cs.take i)).results.length = i := by
    rw [runSim_results_length, List.length_take]
    omega
  have htake : (runSim cs).results.take (i + 1) =
      (runSim (cs.take i)).results ++
        [joinedResult (runSim (cs.take i)) (cs.getD i default) ch] := by
    rw [← runSim_take, hrun, joinCounter_results]
  have hri : (runSim cs).results.getD i default =
      joinedResult (runSim (cs.take i)) (cs.getD i default) ch := by
    rw [← getD_take_succ _ i (by omega) default, htake]
    have h := getD_append_singleton (runSim (cs.take i)).results
      (joinedResult (runSim (cs.take i)) (cs.getD i default) ch) default
    rw [hAlen] at h
    exact h
  have hcount := inv2_runSim (cs.take (i + 1)) ch hch4
  have hq : qlen (runSim (cs.take (i + 1))).counters ch =
      qlen (runSim (cs.take i)).counters ch + 1 := by
    rw [hrun, qlen_joinCounter, if_pos ⟨rfl, by omega⟩]
  have hres : (runSim (cs.take (i + 1))).results = (runSim cs).results.take (i + 1) :=
    runSim_take cs (i + 1)
  rw [hri, joinedResult_qaj, joinedResult_counter, ← hres, ← hcount, hq]

/-! ## Uncaught `ValueError` aborts ingestion -/

theorem read_sensor_rows_error (row : List String) (hlen : 5 ≤ row.length)
    (hbad : parseFloat (row.getD 0 "") = none ∨ parseInt (row.getD 1 "") = none ∨
      parseInt (row.getD 2 "") = none ∨ parseInt (row.getD 3 "") = none ∨
      parseInt (row.getD 4 "") = none) :
    ∀ pre post, ∃ e, read_sensor_rows (pre ++ row :: post) = Except.error e := by
  intro pre
  induction pre with
  | nil =>
    intro post
    refine ⟨"ValueError", ?_⟩
    rw [List.nil_append, read_sensor_rows, if_neg (by omega)]
    rcases h0 : parseFloat (row.getD 0 "") with _ | ts <;>
      rcases h1 : parseInt (row.getD 1 "") with _ | a <;>
        rcases h2 : parseInt (row.getD 2 "") with _ | b <;>
          rcases h3 : parseInt (row.getD 3 "") with _ | c <;>
            rcases h4 : parseInt (row.getD 4 "") with _ | d <;>
              simp_all
  | cons q pre ih =>
    intro post
    obtain ⟨e, he⟩ := ih post
    rw [List.cons_append, read_sensor_rows]
    by_cases hq : q.length < 5
    · rw [if_pos hq]
      exact ⟨e, he⟩
    · rw [if_neg hq]
      rcases h0 : parseFloat (q.getD 0 "") with _ | ts <;>
        rcases h1 : parseInt (q.getD 1 "") with _ | a <;>
          rcases h2 : parseInt (q.getD 2 "") with _ | b <;>
            rcases h3 : parseInt (q.getD 3 "") with _ | c <;>
              rcases h4 : parseInt (q.getD 4 "") with _ | d <;>
                first
                | exact ⟨"ValueError", rfl⟩
                | exact ⟨e, by rw [he]; rfl⟩

/-- Element `j` of `predicted_waits` is queue length times service
duration of counter `j`. -/
theorem predictedWaits_getD (counters : List Counter) (j : ℕ) (hj : j < counters.length) :
    (predictedWaits counters).getD j 0 =
      (qlen counters j : ℚ) * (counters.getD j dummyCounter).service := by
  have hj' : j < (predictedWaits counters).length := by
    rw [predictedWaits_length]
    exact hj
  rw [List.getD_eq_getElem _ _ hj']
  simp only [predictedWaits, List.getElem_map]
  rw [qmul_eq, qlen, List.getD_eq_getElem _ _ hj]

/-! # The claims -/

/-- C1, counterexample: a row with at least 5 fields whose second field
is non-numeric is not skipped; the `ValueError` raised by `int` escapes
`read_sensor_live` (only `FileNotFoundError` is caught), so no reading
list at all is produced, instead of the list obtained with the
malformed row absent. -/
theorem claim_c1_counterexample :
    read_sensor_live [["time", "c1", "c2", "c3", "c4"],
        ["1.0", "x", "0", "0", "0"], ["2.0", "1", "0", "0", "0"]] =
      Except.error "ValueError" ∧
    read_sensor_live [["time", "c1", "c2", "c3", "c4"],
        ["2.0", "1", "0", "0", "0"]] = Except.ok [⟨2, 1, 0, 0, 0⟩] ∧
    (Except.error "ValueError" : Except String (List SensorReading)) ≠
      Except.ok [⟨2, 1, 0, 0, 0⟩] := by
  refine ⟨by rfl, by rfl, ?_⟩
  intro h
  exact Except.noConfusion h

/-- C1, amended: a data row with fewer than 5 fields is skipped, but a
data row with at least 5 fields containing a non-numeric value in any
of the first five positions makes the whole ingestion raise
`ValueError`: no reading list is produced, wherever the row sits in the
file. -/
theorem claim_c1 (row : List String) (hlen : 5 ≤ row.length)
    (hbad : parseFloat (row.getD 0 "") = none ∨ parseInt (row.getD 1 "") = none ∨
      parseInt (row.getD 2 "") = none ∨ parseInt (row.getD 3 "") = none ∨
      parseInt (row.getD 4 "") = none)
    (header : List String) (pre post : List (List String)) :
    ∃ e, read_sensor_live (header :: (pre ++ row :: post)) = Except.error e := by
  rw [read_sensor_live]
  exact read_sensor_rows_error row hlen hbad pre post

theorem claim_c1_witness :
    ∃ e, read_sensor_live [["time", "c1", "c2", "c3", "c4"],
      ["1.0", "x", "0", "0", "0"]] = Except.error e :=
  claim_c1 ["1.0", "x", "0", "0", "0"] (by decide)
    (Or.inr (Or.inl (by decide))) ["time", "c1", "c2", "c3", "c4"] [] []

/-- C2: the initial choice is the first index minimising
`predicted_waits` (queue length times service duration, over the
pre-assignment state), ties to the lowest index; when that counter is
at capacity and some counter is below capacity, the customer is routed
to the counter of smallest current queue length among those below
capacity, ties again to the lowest index. -/
theorem claim_c2 (cs : List Customer) (c : Customer) (s : SimState) (hs : s = runSim cs)
    (pw : List ℚ) (hpw : pw = predictedWaits s.counters)
    (ch0 : ℕ) (hch0 : ch0 = idxOfMin pw)
    (r : RoutingResult) (hr : r = lastResult (stepCustomer s c)) :
    (∀ j, j < 4 → pw.getD j 0 = (qlen s.counters j : ℚ) * serviceOf s j) ∧
    ch0 < 4 ∧
    (∀ j, j < 4 → pw.getD ch0 0 ≤ pw.getD j 0) ∧
    (∀ j, j < ch0 → pw.getD ch0 0 < pw.getD j 0) ∧
    (qlen s.counters ch0 < 5 → r.counter = ch0 + 1) ∧
    (5 ≤ qlen s.counters ch0 → ∀ j0, j0 < 4 → qlen s.counters j0 < 5 →
      r.counter - 1 < 4 ∧ qlen s.counters (r.counter - 1) < 5 ∧
      (∀ j, j < 4 → qlen s.counters j < 5 →
        qlen s.counters (r.counter - 1) ≤ qlen s.counters j) ∧
      (∀ j, j < r.counter - 1 → qlen s.counters j < 5 →
        qlen s.counters (r.counter - 1) < qlen s.counters j)) := by
  subst hs
  subst hpw
  subst hch0
  subst hr
  have h4 := runSim_counters_length cs
  have hpwlen : (predictedWaits (runSim cs).counters).length = 4 := by
    rw [predictedWaits_length, h4]
  have hpwne : predictedWaits (runSim cs).counters ≠ [] := by
    intro h
    rw [h] at hpwlen
    exact absurd hpwlen (by decide)
  refine ⟨?_, idxOfMin_pw_lt _ h4, ?_, ?_, ?_, ?_⟩
  · intro j hj
    exact predictedWaits_getD _ j (by rw [h4]; exact hj)
  · intro j hj
    exact idxOfMin_le hpwne (by rw [hpwlen]; exact hj)
  · intro j hj
    exact idxOfMin_first hpwne hj
  · intro hlt
    have hlt' : qlen (runSim cs).counters (idxOfMin (predictedWaits (runSim cs).counters)) <
        max_capacity := by rw [max_capacity]; exact hlt
    rw [stepCustomer_of_lt _ _ hlt', lastResult_joinCounter, joinedResult_counter]
  · intro hfull j0 hj0 hj0lt
    have hfull' : max_capacity ≤
        qlen (runSim cs).counters (idxOfMin (predictedWaits (runSim cs).counters)) := by
      rw [max_capacity]; exact hfull
    have hmem0 : j0 ∈ availableIdx (runSim cs).counters := mem_availableIdx.mpr ⟨hj0, hj0lt⟩
    rcases hA : availableIdx (runSim cs).counters with _ | ⟨a, rest⟩
    · rw [hA] at hmem0
      cases hmem0
    · rw [stepCustomer_of_full_cons _ _ hfull' hA, lastResult_joinCounter,
        joinedResult_counter]
      simp only [Nat.add_sub_cancel]
      have hmem : minByQlen (qlen (runSim cs).counters) a rest ∈
          availableIdx (runSim cs).counters := by
        rw [hA]
        rcases minByQlen_mem (qlen (runSim cs).counters) a rest with e | e
        · rw [e]; exact List.mem_cons_self _ _
        · exact List.mem_cons_of_mem _ e
      obtain ⟨htgt4, htgt5⟩ := mem_availableIdx.mp hmem
      have hp : (a :: rest).Pairwise (· < ·) := by
        rw [← hA]; exact availableIdx_pairwise _
      refine ⟨htgt4, htgt5, ?_, ?_⟩
      · intro j hj hjlt
        have hjmem : j ∈ availableIdx (runSim cs).counters := mem_availableIdx.mpr ⟨hj, hjlt⟩
        rw [hA] at hjmem
        rcases List.mem_cons.mp hjmem with h' | h'
        · rw [h']; exact (minByQlen_le (qlen (runSim cs).counters) a rest).1
        · exact (minByQlen_le (qlen (runSim cs).counters) a rest).2 j h'
      · intro j hj hjlt
        have hjmem : j ∈ availableIdx (runSim cs).counters := mem_availableIdx.mpr
          ⟨lt_trans hj htgt4, hjlt⟩
        rw [hA] at hjmem
        exact minByQlen_first (qlen (runSim cs).counters) a rest hp j hjmem hj

theorem claim_c2_witness :
    (lastResult (stepCustomer (runSim []) ⟨1, 0⟩)).counter = 1 ∧
    qlen (runSim (csN 18)).counters
      ((lastResult (stepCustomer (runSim (csN 18)) ⟨19, 0⟩)).counter - 1) < 5 := by
  constructor
  · have h := (claim_c2 [] ⟨1, 0⟩ _ rfl _ rfl _ rfl _ rfl).2.2.2.2.1 (by decide)
    exact h.trans (by decide)
  · exact ((claim_c2 (csN 18) ⟨19, 0⟩ _ rfl _ rfl _ rfl _ rfl).2.2.2.2.2
      (by decide) 1 (by decide) (by decide)).2.1

/-- C3, counterexample: with 23 customers all arriving at time 0, the
23rd customer finds its initially chosen counter at queue length 6 and
every counter at length at least 5, joins it, and its record has
`queue_after_join = 7`, not 6 — the claim's universal `= 6` fails once
queues exceed 5. -/
theorem claim_c3_counterexample :
    csN 23 = csN 22 ++ [{ id := 23, arrival := 0 }] ∧
    5 ≤ qlen (runSim (csN 22)).counters
      (idxOfMin (predictedWaits (runSim (csN 22)).counters)) ∧
    5 ≤ qlen (runSim (csN 22)).counters 0 ∧
    5 ≤ qlen (runSim (csN 22)).counters 1 ∧
    5 ≤ qlen (runSim (csN 22)).counters 2 ∧
    5 ≤ qlen (runSim (csN 22)).counters 3 ∧
    (lastResult (runSim (csN 23))).id = 23 ∧
    (lastResult (runSim (csN 23))).queue_after_join = 7 ∧
    (lastResult (runSim (csN 23))).queue_after_join ≠ 6 := by decide

/-- C3, amended: when the initially chosen counter has queue length at
least 5 and all four counters have queue length at least 5, the
customer is not reassigned: it joins the originally chosen counter,
exactly one all-full advisory naming the customer is appended to each
of the two streams, and `queue_after_join` is the pre-join queue length
plus one — equal to 6 exactly when the chosen counter held 5. -/
theorem claim_c3 (cs : List Customer) (c : Customer) (s : SimState) (hs : s = runSim cs)
    (ch0 : ℕ) (hch0 : ch0 = idxOfMin (predictedWaits s.counters))
    (h1 : 5 ≤ qlen s.counters ch0) (h2 : ∀ j, j < 4 → 5 ≤ qlen s.counters j) :
    (stepCustomer s c).results = s.results ++ [lastResult (stepCustomer s c)] ∧
    (lastResult (stepCustomer s c)).counter = ch0 + 1 ∧
    (lastResult (stepCustomer s c)).queue_after_join = qlen s.counters ch0 + 1 ∧
    (qlen s.counters ch0 = 5 → (lastResult (stepCustomer s c)).queue_after_join = 6) ∧
    (stepCustomer s c).suggestions = s.suggestions ++ [allFullMsg c.id] ∧
    (stepCustomer s c).screen_messages = s.screen_messages ++ [allFullMsg c.id] := by
  subst hs
  subst hch0
  have hA := availableIdx_eq_nil h2
  have h1' : max_capacity ≤
      qlen (runSim cs).counters (idxOfMin (predictedWaits (runSim cs).counters)) := by
    rw [max_capacity]; exact h1
  rw [stepCustomer_of_full_nil _ _ h1' hA, lastResult_joinCounter, joinCounter_results,
    joinCounter_suggestions, joinCounter_screen]
  refine ⟨rfl, joinedResult_counter _ _ _, joinedResult_qaj _ _ _, ?_, rfl, rfl⟩
  intro h5
  rw [joinedResult_qaj, h5]

theorem claim_c3_witness :
    (stepCustomer (runSim (csN 22)) ⟨23, 0⟩).suggestions =
      (runSim (csN 22)).suggestions ++ [allFullMsg 23] :=
  (claim_c3 (csN 22) ⟨23, 0⟩ _ rfl _ rfl (by decide) (by decide)).2.2.2.2.1

/-- C4: the `predicted_wait` field of the emitted record is the entry
of the predicted-wait array computed from the pre-assignment state, at
the index of the finally chosen counter — even after a redirect the
array is not recomputed. -/
theorem claim_c4 (cs : List Customer) (c : Customer) (s : SimState) (hs : s = runSim cs)
    (r : RoutingResult) (hr : r = lastResult (stepCustomer s c)) :
    r.predicted_wait = (predictedWaits s.counters).getD (r.counter - 1) 0 := by
  subst hs
  subst hr
  obtain ⟨ch, sg, sc, heq, -⟩ := stepCustomer_join (runSim cs) c
  rw [heq, lastResult_joinCounter, joinedResult_pw, joinedResult_counter, Nat.add_sub_cancel]

theorem claim_c4_witness :
    (lastResult (stepCustomer (runSim []) ⟨1, 0⟩)).predicted_wait =
      (predictedWaits (runSim []).counters).getD
        ((lastResult (stepCustomer (runSim []) ⟨1, 0⟩)).counter - 1) 0 :=
  claim_c4 [] ⟨1, 0⟩ _ rfl _ rfl

/-- C5: the emitted record satisfies `wait = max 0 (freeAt - arrival)`
against the chosen counter's `free_at` just before assignment,
`start = arrival + wait`, `end = start + service`, and every emitted
wait is non-negative. -/
theorem claim_c5 (cs : List Customer) (c : Customer) (s : SimState) (hs : s = runSim cs)
    (r : RoutingResult) (hr : r = lastResult (stepCustomer s c)) :
    r.wait = max 0 (freeAtOf s (r.counter - 1) - c.arrival) ∧
    r.start = c.arrival + r.wait ∧
    r.endTime = r.start + serviceOf s (r.counter - 1) ∧
    0 ≤ r.wait ∧
    ∀ r2 ∈ (runSim cs).results, 0 ≤ r2.wait := by
  subst hs
  subst hr
  obtain ⟨ch, sg, sc, heq, -⟩ := stepCustomer_join (runSim cs) c
  rw [heq, lastResult_joinCounter]
  refine ⟨?_, ?_, ?_, ?_, results_wait_nonneg cs⟩
  · rw [joinedResult_wait, joinedResult_counter, Nat.add_sub_cancel]
  · rw [joinedResult_start]
  · rw [joinedResult_endTime, joinedResult_counter, Nat.add_sub_cancel]
  · rw [joinedResult_wait]
    exact le_max_left _ _

theorem claim_c5_witness :
    0 ≤ (lastResult (stepCustomer (runSim []) ⟨1, 0⟩)).wait ∧
    0 ≤ (lastResult (runSim [⟨1, 0⟩])).wait :=
  ⟨(claim_c5 [] ⟨1, 0⟩ _ rfl _ rfl).2.2.2.1,
   (claim_c5 [⟨1, 0⟩] ⟨2, 0⟩ _ rfl _ rfl).2.2.2.2 _ (by decide)⟩

/-- C6: with per-sensor cumulative counts non-decreasing from the
zero-initialised previous vector, the number of customers produced is
the sum of the final reading's four cumulative counts (zero if there is
no reading): positive deltas telescope. -/
theorem claim_c6 (rs : List SensorReading)
    (h : monotoneCounts (0, 0, 0, 0) rs = true) :
    ((create_customers_from_sensor rs).length : ℤ) = lastTotalsP (0, 0, 0, 0) rs := by
  have h2 := processReadings_length rs 0 0 0 0 1 h
  rw [create_customers_from_sensor]
  omega

theorem claim_c6_witness :
    monotoneCounts (0, 0, 0, 0) [⟨1, 2, 0, 0, 0⟩, ⟨2, 3, 1, 0, 0⟩] = true ∧
    ((create_customers_from_sensor [⟨1, 2, 0, 0, 0⟩, ⟨2, 3, 1, 0, 0⟩]).length : ℤ) =
      lastTotalsP (0, 0, 0, 0) [⟨1, 2, 0, 0, 0⟩, ⟨2, 3, 1, 0, 0⟩] :=
  ⟨by decide, claim_c6 [⟨1, 2, 0, 0, 0⟩, ⟨2, 3, 1, 0, 0⟩] (by decide)⟩

/-- C7: the ids of the produced customers are exactly `1, 2, ..., N` in
emission order (readings in input order, sensors in ascending index
order within a reading, one id per unit of positive delta). -/
theorem claim_c7 (rs : List SensorReading) :
    (create_customers_from_sensor rs).map (fun c => c.id) =
      List.range' 1 (create_customers_from_sensor rs).length :=
  processReadings_ids rs 0 0 0 0 1

/-- C8: with non-decreasing arrival timestamps, each counter's
`free_at` never decreases along the fold, and each assignment sets the
chosen counter's `free_at` to `max(arrival, free_at) + service`. -/
theorem claim_c8 (cs : List Customer) (c : Customer) (k j : ℕ) (hj : j < 4)
    (_hmono : arrivalsMono cs = true) :
    freeAtOf (runSim (cs.take k)) j ≤ freeAtOf (runSim (cs.take (k + 1))) j ∧
    freeAtOf (stepCustomer (runSim cs) c)
        ((lastResult (stepCustomer (runSim cs) c)).counter - 1) =
      max c.arrival
          (freeAtOf (runSim cs) ((lastResult (stepCustomer (runSim cs) c)).counter - 1)) +
        serviceOf (runSim cs) ((lastResult (stepCustomer (runSim cs) c)).counter - 1) := by
  constructor
  · rcases le_or_lt cs.length k with hk | hk
    · rw [List.take_of_length_le hk, List.take_of_length_le (le_trans hk (by omega))]
    · rw [take_succ_getElem cs k hk, runSim_append_one]
      exact freeAt_stepCustomer_ge _ _ j (le_of_lt (serviceOf_runSim_pos _ j hj))
  · have h4 := runSim_counters_length cs
    obtain ⟨ch, sg, sc, heq, hch⟩ := stepCustomer_join (runSim cs) c
    have hch4 := hch h4
    rw [heq, lastResult_joinCounter, joinedResult_counter, Nat.add_sub_cancel,
      freeAt_joinCounter, if_pos ⟨rfl, by rw [h4]; exact hch4⟩, joinedResult_endTime_eq]

theorem claim_c8_witness :
    freeAtOf (runSim (([⟨1, 0⟩, ⟨2, 0⟩] : List Customer).take 0)) 0 ≤
      freeAtOf (runSim (([⟨1, 0⟩, ⟨2, 0⟩] : List Customer).take 1)) 0 :=
  (claim_c8 [⟨1, 0⟩, ⟨2, 0⟩] ⟨3, 0⟩ 0 0 (by decide) (by decide)).1

/-- C9: after any run the suggestion stream and the screen-message
stream have the same length, and a single step appends either one
message to each stream or none to either, so the two streams stay
paired one-to-one per triggering event. -/
theorem claim_c9 (cs : List Customer) :
    (simulate_multi_counter cs).2.1.length = (simulate_multi_counter cs).2.2.length ∧
    ∀ (s : SimState) (c : Customer),
      ((stepCustomer s c).suggestions = s.suggestions ∧
        (stepCustomer s c).screen_messages = s.screen_messages) ∨
      (∃ m1 m2, (stepCustomer s c).suggestions = s.suggestions ++ [m1] ∧
        (stepCustomer s c).screen_messages = s.screen_messages ++ [m2]) := by
  refine ⟨?_, stepCustomer_msgs⟩
  show (runSim cs).suggestions.length = (runSim cs).screen_messages.length
  rw [runSim]
  exact foldl_msgs_length cs initState rfl

/-- C10: queues only grow (a step appends to one queue and removes
nothing), each counter's queue length equals the number of results
routed to it so far, the k-th customer routed to a counter records
`queue_after_join = k`, and once 20 customers are routed all counters
hold at least 5, so every later customer takes the all-full branch. -/
theorem claim_c10 (cs : List Customer) (c : Customer) :
    (∀ (s : SimState) (d : Customer) (j : ℕ), ∃ t,
      ((stepCustomer s d).counters.getD j dummyCounter).queue =
        (s.counters.getD j dummyCounter).queue ++ t) ∧
    (∀ j, j < 4 → qlen (runSim cs).counters j =
      (runSim cs).results.countP (fun r => decide (r.counter = j + 1))) ∧
    (∀ i, i < cs.length →
      ((runSim cs).results.getD i default).queue_after_join =
        ((runSim cs).results.take (i + 1)).countP
          (fun r => decide (r.counter = ((runSim cs).results.getD i default).counter))) ∧
    (20 ≤ cs.length →
      (∀ j, j < 4 → 5 ≤ qlen (runSim cs).counters j) ∧
      (stepCustomer (runSim cs) c).suggestions =
        (runSim cs).suggestions ++ [allFullMsg c.id]) := by
  refine ⟨?_, inv2_runSim cs, qaj_counts cs, ?_⟩
  · intro s d j
    obtain ⟨ch, sg, sc, heq, -⟩ := stepCustomer_join s d
    rw [heq, queue_joinCounter]
    by_cases h : ch = j ∧ j < s.counters.length
    · rw [if_pos h]
      exact ⟨[d.id], rfl⟩
    · rw [if_neg h]
      exact ⟨[], (List.append_nil _).symm⟩
  · intro h20
    have hfull := full_after_20 cs h20
    refine ⟨hfull, ?_⟩
    have h4 := runSim_counters_length cs
    have hch := idxOfMin_pw_lt _ h4
    have hA := availableIdx_eq_nil hfull
    have h1' : max_capacity ≤
        qlen (runSim cs).counters (idxOfMin (predictedWaits (runSim cs).counters)) := by
      rw [max_capacity]
      exact hfull _ hch
    rw [stepCustomer_of_full_nil _ _ h1' hA, joinCounter_suggestions]

theorem claim_c10_witness :
    5 ≤ qlen (runSim (csN 20)).counters 0 ∧
    (stepCustomer (runSim (csN 20)) ⟨21, 0⟩).suggestions =
      (runSim (csN 20)).suggestions ++ [allFullMsg 21] ∧
    qlen (runSim (csN 20)).counters 1 =
      (runSim (csN 20)).results.countP (fun r => decide (r.counter = 2)) ∧
    ((runSim (csN 20)).results.getD 0 default).queue_after_join =
      ((runSim (csN 20)).results.take 1).countP
        (fun r => decide (r.counter = ((runSim (csN 20)).results.getD 0 default).counter)) := by
  refine ⟨((claim_c10 (csN 20) ⟨21, 0⟩).2.2.2 (by decide)).1 0 (by decide),
    ((claim_c10 (csN 20) ⟨21, 0⟩).2.2.2 (by decide)).2,
    (claim_c10 (csN 20) ⟨21, 0⟩).2.1 1 (by decide),
    (claim_c10 (csN 20) ⟨21, 0⟩).2.2.1 0 (by decide)⟩

end SmartQueue
